import Mathlib

/-!
Verification of the feature-to-span alignment and residual-accounting core
(`eli5/sklearn/text.py`): `get_weighted_spans`, `_get_doc_weighted_spans`,
`_get_features`, `_get_weighted_spans_from_union`, `_get_other`.

Weights are modelled as rationals; documents and feature identifiers are
strings; the external span analyzer (`build_span_analyzer`) is modelled as the
(optional) pair it hands back: the preprocessed document together with the list
of (span-list, feature-identifier) pairs that iterating
`span_analyzer(preprocessed_doc)` yields.  Python dicts are modelled as
association lists with insertion-order/last-write-wins semantics.
-/

namespace EliText

/-- A key of the feature-weights lookup dict.  Plain strings come from atomic
features and composite sub-parts; `fmtd` models a `FormattedFeatureName`
object, which is never equal to any plain string identifier discovered by an
analyzer. -/
inductive FKey where
  | plain (s : String)
  | fmtd (s : String)
deriving DecidableEq, Repr

/-- A feature of a `FeatureWeight`: either atomic (a string, or a
`FormattedFeatureName`), or composite: a list of sub-part records, of which
only the name field matters here. -/
inductive Feature where
  | named (k : FKey)
  | comp (parts : List String)
deriving DecidableEq, Repr

structure FeatureWeight where
  feature : Feature
  weight : ℚ
deriving DecidableEq, Repr

structure FeatureWeights where
  pos : List FeatureWeight
  neg : List FeatureWeight
  pos_remaining : Nat
  neg_remaining : Nat
deriving DecidableEq, Repr

/-- One weighted-span entry is (discovered identifier, offset spans, weight). -/
structure DocWeightedSpans where
  document : String
  spans : List (String × List (Nat × Nat) × ℚ)
  preserve_density : Bool
  vec_name : Option String
deriving DecidableEq, Repr

structure WeightedSpans where
  docs : List DocWeightedSpans
  other : FeatureWeights
deriving DecidableEq, Repr

/-- A vectorizer that passed the `VectorizerMixin` check: `buildSpanAnalyzer`
models `build_span_analyzer(doc, vec)` followed by iterating
`span_analyzer(preprocessed_doc)` (`none` when `span_analyzer is None`);
`analyzer` is the `vec.analyzer` string used for `preserve_density`. -/
structure TextVec where
  buildSpanAnalyzer : String → Option (String × List (List (Nat × Nat) × String))
  analyzer : String

/-- A vectorizer argument: an `InvertableHashingVectorizer` wrapper (holding
its `.vec`), a `VectorizerMixin` text vectorizer, or anything else. -/
inductive Vec where
  | invertableHashing (inner : Vec)
  | mixin (tv : TextVec)
  | nonText

/-- Python `s.startswith(pre)`: the first `len(pre)` characters of `s` equal
`pre` (used instead of `String.startsWith`, which is extensionally the same but
does not reduce inside the kernel). -/
def strStartsWith (s pre : String) : Bool := s.take pre.length == pre

/-- The `(group, index)` key identifying one original `FeatureWeight`. -/
abbrev GKey := String × Nat

/-- Python type `FoundFeatures = Dict[Tuple[str, int], float]`. -/
abbrev FoundFeatures := List (GKey × ℚ)

/-- The keys of a Python dict modelled as an association list. -/
def pyKeys {α β : Type} (d : List (α × β)) : List α := d.map Prod.fst

/-- Assignment `d[k] = v` on a Python dict: update in place when the key is present
(keeping its position), otherwise append at the end. -/
def pyDictInsert {α β : Type} [DecidableEq α] (d : List (α × β)) (k : α) (v : β) :
    List (α × β) :=
  if k ∈ pyKeys d then d.map (fun p => if p.1 = k then (k, v) else p)
  else d ++ [(k, v)]

/-- Lookup `d.get(k)` on a Python dict. -/
def pyDictGet {α β : Type} [DecidableEq α] (d : List (α × β)) (k : α) : Option β :=
  (d.find? (fun p => decide (p.1 = k))).map Prod.snd

/-- Python truthiness of a lookup key: the empty string is falsy, a
`FormattedFeatureName` object is truthy. -/
def pyTruthy : FKey → Bool
  | .plain s => decide (s ≠ "")
  | .fmtd _ => true

/-- Model of `_get_features(feature, feature_fn)`: the list of lookup keys contributed
by one feature.  `filter(None, map(feature_fn, features))` drops the
identifiers the filter rejects (returns `None`) and falsy results (the empty
string). -/
def _get_features (feature : Feature) (feature_fn : Option (FKey → Option FKey)) :
    List FKey :=
  let features : List FKey :=
    match feature with
    | .comp parts => parts.map FKey.plain
    | .named k => [k]
  match feature_fn with
  | none => features
  | some fn => (features.filterMap fn).filter pyTruthy

/-- The comprehension items for one group of the `feature_weights_dict`
construction, in generation order. -/
def groupEntries (g : String) (l : List FeatureWeight)
    (feature_fn : Option (FKey → Option FKey)) : List (FKey × (ℚ × GKey)) :=
  l.enum.flatMap (fun p =>
    (_get_features p.2.feature feature_fn).map (fun f => (f, (p.2.weight, (g, p.1)))))

/-- The `feature_weights_dict` table: dict comprehension over the pos group then
the neg group,
with last-write-wins on duplicate keys. -/
def featureWeightsDict (feature_weights : FeatureWeights)
    (feature_fn : Option (FKey → Option FKey)) : List (FKey × (ℚ × GKey)) :=
  (groupEntries ("pos") feature_weights.pos feature_fn
      ++ groupEntries ("neg") feature_weights.neg feature_fn).foldl
    (fun d p => pyDictInsert d p.1 p.2) []

/-- The `isinstance(vec, InvertableHashingVectorizer)` unwrapping: `vec = vec.vec`. -/
def unwrapVec : Vec → Vec
  | .invertableHashing v => v
  | v => v

/-- The matching loop of `_get_doc_weighted_spans`: iterate the analyzer
output, look each discovered identifier up, and on a hit append the weighted
span and record the `(group, index)` key in `found_features`. -/
def spanLoop (fwd : List (FKey × (ℚ × GKey)))
    (analyzed : List (List (Nat × Nat) × String)) :
    List (String × List (Nat × Nat) × ℚ) × FoundFeatures :=
  analyzed.foldl
    (fun st p =>
      match pyDictGet fwd (FKey.plain p.2) with
      | none => st
      | some wk => (st.1 ++ [(p.2, p.1, wk.1)], pyDictInsert st.2 wk.2 wk.1))
    ([], [])

/-- The body of `_get_doc_weighted_spans` after the vectorizer type checks
passed: run `build_span_analyzer`, build the lookup table, run the matching
loop. -/
def mixinSpans (doc : String) (tv : TextVec) (feature_weights : FeatureWeights)
    (feature_fn : Option (FKey → Option FKey)) :
    Option (FoundFeatures × DocWeightedSpans) :=
  match tv.buildSpanAnalyzer doc with
  | none => none
  | some pd =>
    let fwd := featureWeightsDict feature_weights feature_fn
    let res := spanLoop fwd pd.2
    some (res.2,
      { document := pd.1, spans := res.1,
        preserve_density := strStartsWith tv.analyzer ("char"), vec_name := none })

/-- Model of `_get_doc_weighted_spans(doc, vec, feature_weights, feature_fn)`. -/
def _get_doc_weighted_spans (doc : String) (vec : Vec)
    (feature_weights : FeatureWeights) (feature_fn : Option (FKey → Option FKey)) :
    Option (FoundFeatures × DocWeightedSpans) :=
  match unwrapVec vec with
  | .mixin tv => mixinSpans doc tv feature_weights feature_fn
  | _ => none

/-- The `all_found_features` union of all the `FoundFeatures` dicts, by
`dict.update` in list order. -/
def allFound (named_found_features : List (String × FoundFeatures)) : FoundFeatures :=
  named_found_features.foldl
    (fun acc p => p.2.foldl (fun d q => pyDictInsert d q.1 q.2) acc) []

/-- One group pass of the unmatched-items loop of `_get_other`: state is the
pair (`other_items`, `accounted_keys`), the latter kept as a list in insertion
order (the source uses a set; only membership is observed). -/
def unmatchedPass (all_found : FoundFeatures) (g : String) (l : List FeatureWeight)
    (st : List FeatureWeight × List GKey) : List FeatureWeight × List GKey :=
  l.enum.foldl
    (fun st p =>
      if (g, p.1) ∉ pyKeys all_found ∧ (g, p.1) ∉ st.2
      then (st.1 ++ [p.2], st.2 ++ [(g, p.1)])
      else st)
    st

/-- The unmatched-originals loop of `_get_other`, over the pos group then the neg
group. -/
def unmatchedItems (feature_weights : FeatureWeights) (all_found : FoundFeatures) :
    List FeatureWeight × List GKey :=
  unmatchedPass all_found ("neg") feature_weights.neg
    (unmatchedPass all_found ("pos") feature_weights.pos ([], []))

/-- The display label of a synthetic summary entry. -/
def vecLabel (vec_name : String) : String :=
  (if vec_name = "" then ("") else vec_name ++ ": ") ++ "Highlighted in text (sum)"

/-- Python `sum(found_features.values())`. -/
def sumValues (d : FoundFeatures) : ℚ := (d.map Prod.snd).sum

/-- The synthetic-entries loop of `_get_other`: one summary `FeatureWeight`
appended per named source whose `found_features` dict is non-empty. -/
def syntheticItems (named_found_features : List (String × FoundFeatures)) :
    List FeatureWeight :=
  named_found_features.foldl
    (fun items p =>
      if p.2 = [] then items
      else items ++ [{ feature := Feature.named (FKey.fmtd (vecLabel p.1)),
                       weight := sumValues p.2 }])
    []

/-- The order used by `other_items.sort(key=lambda x: abs(x.weight),
reverse=True)`: descending absolute weight. -/
def absDesc (a b : FeatureWeight) : Prop := |b.weight| ≤ |a.weight|

instance : DecidableRel absDesc :=
  fun a b => inferInstanceAs (Decidable (|b.weight| ≤ |a.weight|))

/-- The `other_items` list before sorting: unmatched originals in group-then-index
order, then the synthetic per-source entries. -/
def rawOtherItems (feature_weights : FeatureWeights)
    (named_found_features : List (String × FoundFeatures)) : List FeatureWeight :=
  (unmatchedItems feature_weights (allFound named_found_features)).1
    ++ syntheticItems named_found_features

/-- The `other_items` list after the Python stable in-place sort by descending absolute
weight (CPython list.sort is stable; insertion sort with `absDesc` is the
stable descending sort, as established by the sortedness and stability
theorems below). -/
def sortedOtherItems (feature_weights : FeatureWeights)
    (named_found_features : List (String × FoundFeatures)) : List FeatureWeight :=
  List.insertionSort absDesc (rawOtherItems feature_weights named_found_features)

/-- Model of `_get_other(feature_weights, named_found_features)`. -/
def _get_other (feature_weights : FeatureWeights)
    (named_found_features : List (String × FoundFeatures)) : FeatureWeights :=
  let other_items := sortedOtherItems feature_weights named_found_features
  { pos := other_items.filter (fun fw => decide (0 ≤ fw.weight)),
    neg := other_items.filter (fun fw => decide (fw.weight < 0)),
    pos_remaining := feature_weights.pos_remaining,
    neg_remaining := feature_weights.neg_remaining }

/-- The per-source name filter built in `_get_weighted_spans_from_union`:
`lambda x: x[len(vec_prefix):] if x.startswith(vec_prefix) else None` with
`vec_prefix = vec_name + "__"`.  (On a `FormattedFeatureName` the Python
lambda would fail for lack of `startswith`; such features never occur in the
upstream weights, and the model rejects them.) -/
def unionFilter (vec_name : String) (f : FKey) : Option FKey :=
  match f with
  | .plain x =>
    if strStartsWith x (vec_name ++ "__")
    then some (FKey.plain (x.drop (vec_name ++ "__").length))
    else none
  | .fmtd _ => none

/-- One iteration of the union loop: run the single-source aligner with the
per-source name filter and tag the resulting `DocWeightedSpans` with the
source name. -/
def alignSource (doc : String) (feature_weights : FeatureWeights)
    (p : String × Vec) : Option (String × FoundFeatures × DocWeightedSpans) :=
  (_get_doc_weighted_spans doc p.2 feature_weights (some (unionFilter p.1))).map
    (fun r => (p.1, r.1, { r.2 with vec_name := some p.1 }))

/-- Model of `_get_weighted_spans_from_union(doc, vec_union, feature_weights)`. -/
def _get_weighted_spans_from_union (doc : String)
    (transformer_list : List (String × Vec)) (feature_weights : FeatureWeights) :
    Option WeightedSpans :=
  let results := transformer_list.filterMap (alignSource doc feature_weights)
  if results = [] then none
  else some
    { docs := results.map (fun r => r.2.2),
      other := _get_other feature_weights (results.map (fun r => (r.1, r.2.1))) }

/-- The vectorizer argument of `get_weighted_spans`: a `FeatureUnion` (its
`transformer_list`) or a single vectorizer. -/
inductive VecOrUnion where
  | single (v : Vec)
  | union (transformer_list : List (String × Vec))

/-- Model of `get_weighted_spans(doc, vec, feature_weights)`. -/
def get_weighted_spans (doc : String) (vec : VecOrUnion)
    (feature_weights : FeatureWeights) : Option WeightedSpans :=
  match vec with
  | .union ts => _get_weighted_spans_from_union doc ts feature_weights
  | .single v =>
    match _get_doc_weighted_spans doc v feature_weights none with
    | none => none
    | some r =>
      some { docs := [r.2], other := _get_other feature_weights [("", r.1)] }

/-! ### Association-list dict lemmas -/

theorem pyKeys_append {α β : Type} (d e : List (α × β)) :
    pyKeys (d ++ e) = pyKeys d ++ pyKeys e :=
  List.map_append _ _ _

theorem pyKeys_pyDictInsert_of_mem {α β : Type} [DecidableEq α]
    {d : List (α × β)} {k : α} (v : β) (h : k ∈ pyKeys d) :
    pyKeys (pyDictInsert d k v) = pyKeys d := by
  unfold pyDictInsert
  rw [if_pos h]
  simp only [pyKeys, List.map_map]
  refine List.map_congr_left (fun p _ => ?_)
  by_cases hp : p.1 = k <;> simp [hp, Function.comp]

theorem pyKeys_pyDictInsert_of_not_mem {α β : Type} [DecidableEq α]
    {d : List (α × β)} {k : α} (v : β) (h : k ∉ pyKeys d) :
    pyKeys (pyDictInsert d k v) = pyKeys d ++ [k] := by
  unfold pyDictInsert
  rw [if_neg h]
  simp [pyKeys]

theorem mem_pyKeys_cons {α β : Type} {q : α × β} {l : List (α × β)} {a : α} :
    a ∈ pyKeys (q :: l) ↔ a = q.1 ∨ a ∈ pyKeys l := by
  simp [pyKeys]

theorem mem_pyKeys_pyDictInsert {α β : Type} [DecidableEq α]
    {d : List (α × β)} {k a : α} {v : β} :
    a ∈ pyKeys (pyDictInsert d k v) ↔ a = k ∨ a ∈ pyKeys d := by
  by_cases h : k ∈ pyKeys d
  · rw [pyKeys_pyDictInsert_of_mem v h]
    constructor
    · exact Or.inr
    · rintro (rfl | ha)
      · exact h
      · exact ha
  · rw [pyKeys_pyDictInsert_of_not_mem v h]
    simp [or_comm]

theorem nodup_pyKeys_pyDictInsert {α β : Type} [DecidableEq α]
    {d : List (α × β)} {k : α} (v : β) (h : (pyKeys d).Nodup) :
    (pyKeys (pyDictInsert d k v)).Nodup := by
  by_cases hk : k ∈ pyKeys d
  · rwa [pyKeys_pyDictInsert_of_mem v hk]
  · rw [pyKeys_pyDictInsert_of_not_mem v hk]
    rw [List.nodup_append]
    refine ⟨h, List.nodup_singleton k, ?_⟩
    intro a ha hb
    rw [List.mem_singleton] at hb
    exact hk (hb ▸ ha)

theorem mem_pyDictInsert {α β : Type} [DecidableEq α]
    {d : List (α × β)} {k : α} {v : β} {p : α × β} (h : p ∈ pyDictInsert d k v) :
    p = (k, v) ∨ p ∈ d := by
  unfold pyDictInsert at h
  split at h
  · rcases List.mem_map.mp h with ⟨q, hq, he⟩
    by_cases h1 : q.1 = k
    · rw [if_pos h1] at he
      exact Or.inl he.symm
    · rw [if_neg h1] at he
      exact Or.inr (he ▸ hq)
  · rcases List.mem_append.mp h with h1 | h1
    · exact Or.inr h1
    · rw [List.mem_singleton] at h1
      exact Or.inl h1

theorem pyDictGet_eq_none {α β : Type} [DecidableEq α]
    {d : List (α × β)} {k : α} :
    pyDictGet d k = none ↔ k ∉ pyKeys d := by
  simp only [pyDictGet, Option.map_eq_none', List.find?_eq_none, decide_eq_true_eq,
    pyKeys, List.mem_map]
  constructor
  · rintro h ⟨p, hp, rfl⟩
    exact h p hp rfl
  · rintro h p hp rfl
    exact h ⟨p, hp, rfl⟩

theorem mem_of_pyDictGet_eq_some {α β : Type} [DecidableEq α]
    {d : List (α × β)} {k : α} {v : β} (h : pyDictGet d k = some v) :
    (k, v) ∈ d := by
  unfold pyDictGet at h
  cases hf : d.find? (fun p => decide (p.1 = k)) with
  | none => rw [hf] at h; exact absurd h (by simp)
  | some p =>
    have hm := List.mem_of_find?_eq_some hf
    have hp := List.find?_some hf
    rw [decide_eq_true_eq] at hp
    rw [hf] at h
    have hv : p.2 = v := by simpa using h
    have : p = (k, v) := by
      cases p
      simp only [Prod.mk.injEq]
      exact ⟨hp, hv⟩
    rwa [this] at hm

theorem pyDictGet_isSome_of_mem {α β : Type} [DecidableEq α]
    {d : List (α × β)} {k : α} (h : k ∈ pyKeys d) :
    ∃ v, pyDictGet d k = some v := by
  cases hg : pyDictGet d k with
  | none => exact absurd (pyDictGet_eq_none.mp hg) (by simpa using h)
  | some v => exact ⟨v, rfl⟩

/-! ### Folded-insert lemmas -/

theorem mem_foldl_pyDictInsert {α β : Type} [DecidableEq α]
    {entries : List (α × β)} {init : List (α × β)} {p : α × β}
    (h : p ∈ entries.foldl (fun d q => pyDictInsert d q.1 q.2) init) :
    p ∈ init ∨ p ∈ entries := by
  induction entries generalizing init with
  | nil => exact Or.inl h
  | cons q l ih =>
    rcases ih h with h1 | h1
    · rcases mem_pyDictInsert h1 with h2 | h2
      · refine Or.inr ?_
        rw [h2]
        exact List.mem_cons_self _ _
      · exact Or.inl h2
    · exact Or.inr (List.mem_cons_of_mem _ h1)

theorem mem_pyKeys_foldl_pyDictInsert {α β : Type} [DecidableEq α]
    {entries : List (α × β)} {init : List (α × β)} {a : α} :
    a ∈ pyKeys (entries.foldl (fun d q => pyDictInsert d q.1 q.2) init) ↔
      a ∈ pyKeys init ∨ a ∈ pyKeys entries := by
  induction entries generalizing init with
  | nil => simp [pyKeys]
  | cons q l ih =>
    rw [List.foldl_cons, ih, mem_pyKeys_pyDictInsert, mem_pyKeys_cons]
    tauto

theorem nodup_pyKeys_foldl_pyDictInsert {α β : Type} [DecidableEq α]
    (entries : List (α × β)) {init : List (α × β)} (h : (pyKeys init).Nodup) :
    (pyKeys (entries.foldl (fun d q => pyDictInsert d q.1 q.2) init)).Nodup := by
  induction entries generalizing init with
  | nil => exact h
  | cons q l ih => exact ih (nodup_pyKeys_pyDictInsert _ h)

/-! ### `allFound` lemmas -/

theorem mem_pyKeys_allFound {nff : List (String × FoundFeatures)} {k : GKey} :
    k ∈ pyKeys (allFound nff) ↔ ∃ p ∈ nff, k ∈ pyKeys p.2 := by
  have general : ∀ (l : List (String × FoundFeatures)) (acc : FoundFeatures),
      k ∈ pyKeys (l.foldl (fun acc p => p.2.foldl (fun d q => pyDictInsert d q.1 q.2) acc) acc) ↔
        k ∈ pyKeys acc ∨ ∃ p ∈ l, k ∈ pyKeys p.2 := by
    intro l
    induction l with
    | nil => simp
    | cons q l ih =>
      intro acc
      rw [List.foldl_cons, ih, mem_pyKeys_foldl_pyDictInsert]
      constructor
      · rintro ((h | h) | ⟨p, hp, hk⟩)
        · exact Or.inl h
        · exact Or.inr ⟨q, List.mem_cons_self _ _, h⟩
        · exact Or.inr ⟨p, List.mem_cons_of_mem _ hp, hk⟩
      · rintro (h | ⟨p, hp, hk⟩)
        · exact Or.inl (Or.inl h)
        · rcases List.mem_cons.mp hp with rfl | hp
          · exact Or.inl (Or.inr hk)
          · exact Or.inr ⟨p, hp, hk⟩
  simpa [allFound, pyKeys] using general nff []

theorem nodup_pyKeys_allFound (nff : List (String × FoundFeatures)) :
    (pyKeys (allFound nff)).Nodup := by
  have general : ∀ (l : List (String × FoundFeatures)) (acc : FoundFeatures),
      (pyKeys acc).Nodup →
      (pyKeys (l.foldl (fun acc p => p.2.foldl (fun d q => pyDictInsert d q.1 q.2) acc) acc)).Nodup := by
    intro l
    induction l with
    | nil => exact fun _ h => h
    | cons q l ih => exact fun acc h => ih _ (nodup_pyKeys_foldl_pyDictInsert _ h)
  exact general nff [] List.nodup_nil

/-! ### Characterization of the unmatched-items loop -/

theorem unmatchedPass_enumFrom (af : FoundFeatures) (g : String) :
    ∀ (l : List FeatureWeight) (n : Nat) (items : List FeatureWeight) (acc : List GKey),
      (∀ i, (g, i) ∈ acc → i < n) →
      (List.enumFrom n l).foldl
          (fun st p =>
            if (g, p.1) ∉ pyKeys af ∧ (g, p.1) ∉ st.2
            then (st.1 ++ [p.2], st.2 ++ [(g, p.1)])
            else st)
          (items, acc) =
        (items ++ ((List.enumFrom n l).filter
            (fun p => decide ((g, p.1) ∉ pyKeys af))).map Prod.snd,
         acc ++ ((List.enumFrom n l).filter
            (fun p => decide ((g, p.1) ∉ pyKeys af))).map (fun p => (g, p.1))) := by
  intro l
  induction l with
  | nil => intro n items acc _; simp [List.enumFrom]
  | cons x l ih =>
    intro n items acc hacc
    have hnotacc : (g, n) ∉ acc := fun hmem => absurd (hacc n hmem) (lt_irrefl n)
    simp only [List.enumFrom, List.foldl_cons]
    by_cases hm : (g, n) ∈ pyKeys af
    · rw [if_neg (by simp [hm])]
      rw [ih (n + 1) items acc (fun i hi => Nat.lt_succ_of_lt (hacc i hi))]
      have hfilter : decide ((g, n) ∉ pyKeys af) = false := by simp [hm]
      simp [List.filter_cons, hfilter, hm]
    · rw [if_pos ⟨hm, hnotacc⟩]
      have hinv : ∀ i, (g, i) ∈ acc ++ [(g, n)] → i < n + 1 := by
        intro i hi
        rcases List.mem_append.mp hi with hi | hi
        · exact Nat.lt_succ_of_lt (hacc i hi)
        · rw [List.mem_singleton] at hi
          have : i = n := (Prod.mk.injEq _ _ _ _ ▸ hi).2
          omega
      rw [ih (n + 1) (items ++ [x]) (acc ++ [(g, n)]) hinv]
      have hfilter : decide ((g, n) ∉ pyKeys af) = true := by simp [hm]
      simp [List.filter_cons, hfilter, hm, List.append_assoc]

theorem unmatchedPass_eq (af : FoundFeatures) (g : String) (l : List FeatureWeight)
    (items : List FeatureWeight) (acc : List GKey) (h : ∀ i, (g, i) ∉ acc) :
    unmatchedPass af g l (items, acc) =
      (items ++ (l.enum.filter (fun p => decide ((g, p.1) ∉ pyKeys af))).map Prod.snd,
       acc ++ (l.enum.filter (fun p => decide ((g, p.1) ∉ pyKeys af))).map
          (fun p => (g, p.1))) := by
  unfold unmatchedPass
  rw [show l.enum = List.enumFrom 0 l from rfl]
  exact unmatchedPass_enumFrom af g l 0 items acc (fun i hi => absurd hi (h i))

/-- The `(group, index)` keys of all original entries, in group-then-index
scan order. -/
def origKeys (fws : FeatureWeights) : List GKey :=
  fws.pos.enum.map (fun p => ("pos", p.1)) ++ fws.neg.enum.map (fun p => ("neg", p.1))

/-- The original entries of a `FeatureWeights` paired with their
`(group, index)` keys, in group-then-index scan order. -/
def origEnum (fws : FeatureWeights) : List (GKey × FeatureWeight) :=
  fws.pos.enum.map (fun p => (("pos", p.1), p.2))
    ++ fws.neg.enum.map (fun p => (("neg", p.1), p.2))

theorem enum_map_group_nodup (g : String) (l : List FeatureWeight) :
    (l.enum.map (fun p => (g, p.1))).Nodup := by
  have h1 : l.enum.map (fun p => (g, p.1)) =
      (l.enum.map Prod.fst).map (fun i => (g, i)) := by
    rw [List.map_map]
    rfl
  rw [h1, show l.enum = List.enumFrom 0 l from rfl, List.enumFrom_map_fst]
  refine List.Nodup.map ?_ (List.nodup_range' 0 l.length)
  intro a b hab
  exact (Prod.mk.injEq _ _ _ _ ▸ hab).2

theorem nodup_origKeys (fws : FeatureWeights) : (origKeys fws).Nodup := by
  rw [origKeys, List.nodup_append]
  refine ⟨enum_map_group_nodup _ _, enum_map_group_nodup _ _, ?_⟩
  intro k hk1 hk2
  rcases List.mem_map.mp hk1 with ⟨p, _, rfl⟩
  rcases List.mem_map.mp hk2 with ⟨q, _, hq⟩
  exact absurd (Prod.mk.injEq _ _ _ _ ▸ hq.symm).1 (by decide)

theorem unmatchedItems_eq (fws : FeatureWeights) (af : FoundFeatures) :
    unmatchedItems fws af =
      (((origEnum fws).filter (fun q => decide (q.1 ∉ pyKeys af))).map Prod.snd,
       (origKeys fws).filter (fun k => decide (k ∉ pyKeys af))) := by
  unfold unmatchedItems
  rw [unmatchedPass_eq af ("pos") fws.pos [] [] (fun i hi => by simp at hi)]
  rw [unmatchedPass_eq af ("neg") fws.neg]
  · have hmain : ∀ (g : String) (l : List FeatureWeight),
        (l.enum.filter (fun p => decide ((g, p.1) ∉ pyKeys af))).map (fun p => (g, p.1)) =
          (l.enum.map (fun p => (g, p.1))).filter (fun k => decide (k ∉ pyKeys af)) := by
      intro g l
      rw [List.filter_map]
      rfl
    have hitems : ∀ (g : String) (l : List FeatureWeight),
        (l.enum.filter (fun p => decide ((g, p.1) ∉ pyKeys af))).map Prod.snd =
          ((l.enum.map (fun p => ((g, p.1), p.2))).filter
            (fun q => decide (q.1 ∉ pyKeys af))).map Prod.snd := by
      intro g l
      rw [List.filter_map, List.map_map]
      rfl
    rw [origEnum, origKeys, List.filter_append, List.filter_append, List.map_append,
      List.nil_append, List.nil_append, hmain, hmain, hitems, hitems]
  · intro i hi
    rw [List.nil_append] at hi
    rcases List.mem_map.mp hi with ⟨p, _, hp⟩
    exact absurd (Prod.mk.injEq _ _ _ _ ▸ hp).1.symm (by decide)

/-! ### The lookup table and the matching loop -/

/-- The original `FeatureWeight` stored at a `(group, index)` key. -/
def origAt (fws : FeatureWeights) (k : GKey) : Option FeatureWeight :=
  if k.1 = "pos" then fws.pos[k.2]? else if k.1 = "neg" then fws.neg[k.2]? else none

theorem mem_origEnum_of_origAt {fws : FeatureWeights} {k : GKey} {fw : FeatureWeight}
    (h : origAt fws k = some fw) : (k, fw) ∈ origEnum fws := by
  obtain ⟨g, i⟩ := k
  unfold origAt at h
  by_cases hg : g = "pos"
  · rw [if_pos hg] at h
    subst hg
    refine List.mem_append_left _ (List.mem_map.mpr ⟨(i, fw), ?_, rfl⟩)
    exact List.mk_mem_enum_iff_getElem?.mpr h
  · rw [if_neg hg] at h
    by_cases hg2 : g = "neg"
    · rw [if_pos hg2] at h
      subst hg2
      refine List.mem_append_right _ (List.mem_map.mpr ⟨(i, fw), ?_, rfl⟩)
      exact List.mk_mem_enum_iff_getElem?.mpr h
    · rw [if_neg hg2] at h
      exact absurd h (by simp)

theorem mem_groupEntries {g : String} {l : List FeatureWeight}
    {fn : Option (FKey → Option FKey)} {e : FKey × (ℚ × GKey)}
    (h : e ∈ groupEntries g l fn) :
    ∃ i fw, l[i]? = some fw ∧ e.2.2 = (g, i) ∧ e.2.1 = fw.weight ∧
      e.1 ∈ _get_features fw.feature fn := by
  rcases List.mem_flatMap.mp h with ⟨p, hp, he⟩
  rcases List.mem_map.mp he with ⟨f, hf, rfl⟩
  obtain ⟨i, fw⟩ := p
  exact ⟨i, fw, List.mk_mem_enum_iff_getElem?.mp hp, rfl, rfl, hf⟩

theorem mem_featureWeightsDict {fws : FeatureWeights}
    {fn : Option (FKey → Option FKey)} {e : FKey × (ℚ × GKey)}
    (h : e ∈ featureWeightsDict fws fn) :
    ∃ fw, origAt fws e.2.2 = some fw ∧ e.2.1 = fw.weight ∧
      e.1 ∈ _get_features fw.feature fn := by
  rcases mem_foldl_pyDictInsert h with h1 | h1
  · exact absurd h1 (List.not_mem_nil _)
  · rcases List.mem_append.mp h1 with h2 | h2
    · rcases mem_groupEntries h2 with ⟨i, fw, hget, hk, hw, hf⟩
      refine ⟨fw, ?_, hw, hf⟩
      rw [hk]
      simpa [origAt] using hget
    · rcases mem_groupEntries h2 with ⟨i, fw, hget, hk, hw, hf⟩
      refine ⟨fw, ?_, hw, hf⟩
      rw [hk]
      simpa [origAt] using hget

theorem spanLoop_spec (fwd : List (FKey × (ℚ × GKey)))
    (analyzed : List (List (Nat × Nat) × String)) :
    (∀ q ∈ (spanLoop fwd analyzed).2, ∃ f, pyDictGet fwd f = some (q.2, q.1))
    ∧ (∀ s ∈ (spanLoop fwd analyzed).1,
        ∃ k, pyDictGet fwd (FKey.plain s.1) = some (s.2.2, k)) := by
  have general : ∀ (st : List (String × List (Nat × Nat) × ℚ) × FoundFeatures),
      (∀ q ∈ st.2, ∃ f, pyDictGet fwd f = some (q.2, q.1)) →
      (∀ s ∈ st.1, ∃ k, pyDictGet fwd (FKey.plain s.1) = some (s.2.2, k)) →
      (∀ q ∈ (analyzed.foldl
          (fun st p =>
            match pyDictGet fwd (FKey.plain p.2) with
            | none => st
            | some wk => (st.1 ++ [(p.2, p.1, wk.1)], pyDictInsert st.2 wk.2 wk.1))
          st).2, ∃ f, pyDictGet fwd f = some (q.2, q.1))
      ∧ (∀ s ∈ (analyzed.foldl
          (fun st p =>
            match pyDictGet fwd (FKey.plain p.2) with
            | none => st
            | some wk => (st.1 ++ [(p.2, p.1, wk.1)], pyDictInsert st.2 wk.2 wk.1))
          st).1, ∃ k, pyDictGet fwd (FKey.plain s.1) = some (s.2.2, k)) := by
    induction analyzed with
    | nil => exact fun st h2 h1 => ⟨h2, h1⟩
    | cons p l ih =>
      intro st h2 h1
      rw [List.foldl_cons]
      cases hg : pyDictGet fwd (FKey.plain p.2) with
      | none => exact ih st h2 h1
      | some wk =>
        refine ih _ ?_ ?_
        · intro q hq
          rcases mem_pyDictInsert hq with hq1 | hq1
          · exact ⟨FKey.plain p.2, by rw [hg, hq1]⟩
          · exact h2 q hq1
        · intro s hs
          rcases List.mem_append.mp hs with hs1 | hs1
          · exact h1 s hs1
          · rw [List.mem_singleton] at hs1
            exact ⟨wk.2, by rw [hs1, hg]⟩
  exact general ([], []) (fun q hq => absurd hq (List.not_mem_nil _))
    (fun s hs => absurd hs (List.not_mem_nil _))

/-- Dissect a successful run of the single-source aligner: the resulting
`found_features` map and the emitted spans, traced back to the lookup table. -/
theorem alignment_result_spec {doc : String} {vec : Vec} {fws : FeatureWeights}
    {fn : Option (FKey → Option FKey)} {ff : FoundFeatures} {dws : DocWeightedSpans}
    (h : _get_doc_weighted_spans doc vec fws fn = some (ff, dws)) :
    (∀ q ∈ ff, ∃ f, pyDictGet (featureWeightsDict fws fn) f = some (q.2, q.1))
    ∧ (∀ s ∈ dws.spans,
        ∃ k, pyDictGet (featureWeightsDict fws fn) (FKey.plain s.1) = some (s.2.2, k)) := by
  unfold _get_doc_weighted_spans at h
  cases hv : unwrapVec vec with
  | invertableHashing v => rw [hv] at h; exact Option.noConfusion h
  | nonText => rw [hv] at h; exact Option.noConfusion h
  | mixin tv =>
    rw [hv] at h
    replace h : mixinSpans doc tv fws fn = some (ff, dws) := h
    unfold mixinSpans at h
    cases hb : tv.buildSpanAnalyzer doc with
    | none => rw [hb] at h; exact Option.noConfusion h
    | some pd =>
      rw [hb] at h
      injection h with h'
      injection h' with h1 h2
      subst h1
      subst h2
      constructor
      · intro q hq
        exact (spanLoop_spec _ _).1 q hq
      · intro s hs
        exact (spanLoop_spec _ _).2 s hs

/-- A key recorded in `found_features` always traces back to an original
`FeatureWeight` whose feature produced a lookup-table entry. -/
theorem found_key_spec {doc : String} {vec : Vec} {fws : FeatureWeights}
    {fn : Option (FKey → Option FKey)} {ff : FoundFeatures} {dws : DocWeightedSpans}
    (h : _get_doc_weighted_spans doc vec fws fn = some (ff, dws)) {k : GKey}
    (hk : k ∈ pyKeys ff) :
    ∃ fw f, origAt fws k = some fw ∧ f ∈ _get_features fw.feature fn := by
  rcases List.mem_map.mp hk with ⟨q, hq, rfl⟩
  rcases (alignment_result_spec h).1 q hq with ⟨f, hget⟩
  rcases mem_featureWeightsDict (mem_of_pyDictGet_eq_some hget) with ⟨fw, ho, _, hf⟩
  exact ⟨fw, f, ho, hf⟩

/-! ### The stable descending sort -/

instance : IsTotal FeatureWeight absDesc :=
  ⟨fun a b => le_total (|b.weight|) (|a.weight|)⟩

instance : IsTrans FeatureWeight absDesc :=
  ⟨fun _ _ _ h1 h2 => le_trans h2 h1⟩

theorem filter_orderedInsert_absEq (q : ℚ) (x : FeatureWeight) (l : List FeatureWeight) :
    (List.orderedInsert absDesc x l).filter (fun fw => decide (|fw.weight| = q)) =
      if |x.weight| = q
      then x :: l.filter (fun fw => decide (|fw.weight| = q))
      else l.filter (fun fw => decide (|fw.weight| = q)) := by
  induction l with
  | nil =>
    by_cases hx : |x.weight| = q <;>
      simp [List.orderedInsert, List.filter_cons, hx]
  | cons b l ih =>
    rw [List.orderedInsert]
    by_cases hxb : absDesc x b
    · rw [if_pos hxb]
      by_cases hx : |x.weight| = q <;> simp [List.filter_cons, hx]
    · rw [if_neg hxb]
      have hlt : |x.weight| < |b.weight| := not_le.mp hxb
      rw [List.filter_cons]
      by_cases hx : |x.weight| = q
      · have hb : ¬(|b.weight| = q) := by
          rw [← hx]
          exact ne_of_gt hlt
        simp [hb, List.filter_cons, ih, hx]
      · simp [List.filter_cons, ih, hx]

theorem filter_insertionSort_absEq (q : ℚ) (l : List FeatureWeight) :
    (List.insertionSort absDesc l).filter (fun fw => decide (|fw.weight| = q)) =
      l.filter (fun fw => decide (|fw.weight| = q)) := by
  induction l with
  | nil => rfl
  | cons x l ih =>
    rw [List.insertionSort, filter_orderedInsert_absEq, List.filter_cons]
    by_cases hx : |x.weight| = q <;> simp [hx, ih]

/-! ### The synthetic-entries loop -/

theorem syntheticItems_eq (nff : List (String × FoundFeatures)) :
    syntheticItems nff =
      (nff.filter (fun p => decide (p.2 ≠ []))).map
        (fun p => { feature := Feature.named (FKey.fmtd (vecLabel p.1)),
                    weight := sumValues p.2 }) := by
  have general : ∀ (l : List (String × FoundFeatures)) (init : List FeatureWeight),
      l.foldl
          (fun items p =>
            if p.2 = [] then items
            else items ++ [{ feature := Feature.named (FKey.fmtd (vecLabel p.1)),
                             weight := sumValues p.2 }])
          init =
        init ++ (l.filter (fun p => decide (p.2 ≠ []))).map
          (fun p => { feature := Feature.named (FKey.fmtd (vecLabel p.1)),
                      weight := sumValues p.2 }) := by
    intro l
    induction l with
    | nil => intro init; simp
    | cons p l ih =>
      intro init
      rw [List.foldl_cons]
      by_cases hp : p.2 = []
      · rw [if_pos hp, ih, List.filter_cons]
        simp [hp]
      · rw [if_neg hp, ih, List.filter_cons]
        simp [hp, List.append_assoc]
  simpa [syntheticItems] using general nff []

/-! ### Lemmas for empty inputs -/

theorem featureWeightsDict_empty (fn : Option (FKey → Option FKey))
    (fws : FeatureWeights) (hp : fws.pos = []) (hn : fws.neg = []) :
    featureWeightsDict fws fn = [] := by
  unfold featureWeightsDict groupEntries
  rw [hp, hn]
  rfl

theorem spanLoop_nil_dict (analyzed : List (List (Nat × Nat) × String)) :
    spanLoop [] analyzed = ([], []) := by
  unfold spanLoop
  induction analyzed with
  | nil => rfl
  | cons p l ih => rw [List.foldl_cons]; exact ih

theorem count_eq_one_of_mem_nodup {α : Type} [BEq α] [LawfulBEq α] {a : α}
    {l : List α} (hnd : l.Nodup) (h : a ∈ l) : List.count a l = 1 := by
  induction l with
  | nil => exact absurd h (List.not_mem_nil a)
  | cons b l ih =>
    rw [List.count_cons]
    rcases List.mem_cons.mp h with rfl | hmem
    · rw [if_pos (by simp), List.count_eq_zero.mpr (List.nodup_cons.mp hnd).1]
    · have hne : b ≠ a := fun he => (List.nodup_cons.mp hnd).1 (he ▸ hmem)
      rw [if_neg (by simp [hne]), ih (List.nodup_cons.mp hnd).2 hmem]

/-! ### Claim theorems -/

/-- A concrete `FeatureWeights` used by the witnesses: one positive entry. -/
def fwsW : FeatureWeights :=
  { pos := [{ feature := Feature.named (FKey.plain ("good")), weight := 2 }],
    neg := [], pos_remaining := 0, neg_remaining := 0 }

/-- C1: for every input `FeatureWeights` and any list of named `FoundFeatures`
maps, every `(group, index)` key of the original input appears exactly once
across the union of the matched keys and the keys at which original entries
are placed into `other_items`; moreover the entries placed are exactly the
original `FeatureWeight`s at the unmatched keys, in scan order — none dropped,
none duplicated. -/
theorem claim_C1_completeness (fws : FeatureWeights)
    (nff : List (String × FoundFeatures)) :
    (∀ k ∈ origKeys fws,
      List.count k
        (pyKeys (allFound nff) ++ (unmatchedItems fws (allFound nff)).2) = 1)
    ∧ (unmatchedItems fws (allFound nff)).1 =
        ((origEnum fws).filter (fun q => decide (q.1 ∉ pyKeys (allFound nff)))).map
          Prod.snd := by
  constructor
  · intro k hk
    rw [List.count_append, congrArg Prod.snd (unmatchedItems_eq fws (allFound nff))]
    by_cases hmem : k ∈ pyKeys (allFound nff)
    · have h1 : List.count k (pyKeys (allFound nff)) = 1 :=
        count_eq_one_of_mem_nodup (nodup_pyKeys_allFound nff) hmem
      have h2 : List.count k
          ((origKeys fws).filter (fun k => decide (k ∉ pyKeys (allFound nff)))) = 0 := by
        rw [List.count_eq_zero]
        intro hf
        exact absurd hmem (of_decide_eq_true (List.mem_filter.mp hf).2)
      rw [h1, h2]
    · have h1 : List.count k (pyKeys (allFound nff)) = 0 :=
        List.count_eq_zero.mpr hmem
      have h2 : List.count k
          ((origKeys fws).filter (fun k => decide (k ∉ pyKeys (allFound nff)))) =
            List.count k (origKeys fws) :=
        List.count_filter (by simp [hmem])
      rw [h1, h2, count_eq_one_of_mem_nodup (nodup_origKeys fws) hk]
  · exact congrArg Prod.fst (unmatchedItems_eq fws (allFound nff))

/-- Witness for C1 at a concrete input. -/
theorem claim_C1_completeness_witness :
    List.count ("pos", 0)
      (pyKeys (allFound ([] : List (String × FoundFeatures)))
        ++ (unmatchedItems fwsW (allFound [])).2) = 1 :=
  (claim_C1_completeness fwsW []).1 ("pos", 0) (by decide)

/-- C2: the combined `other_items` list produced by the Residual Accountant is
sorted by descending absolute weight, and the sort is stable: among entries of
equal absolute weight the original append order (unmatched originals in
group-then-index order, then the synthetic per-source entries) is preserved. -/
theorem claim_C2_sorted_stable (fws : FeatureWeights)
    (nff : List (String × FoundFeatures)) :
    List.Sorted absDesc (sortedOtherItems fws nff)
    ∧ ∀ q : ℚ,
        (sortedOtherItems fws nff).filter (fun fw => decide (|fw.weight| = q)) =
          (rawOtherItems fws nff).filter (fun fw => decide (|fw.weight| = q)) :=
  ⟨List.sorted_insertionSort absDesc _, fun q => filter_insertionSort_absEq q _⟩

/-- C5: exactly one synthetic `FeatureWeight` is appended per named source
whose `FoundFeatures` map is non-empty, with weight the sum of the matched
weights of that source and the display label determined by the source name; if no
source matched anything, nothing synthetic is appended. -/
theorem claim_C5_synthetic_entries (fws : FeatureWeights)
    (nff : List (String × FoundFeatures)) :
    rawOtherItems fws nff =
      (unmatchedItems fws (allFound nff)).1 ++
        (nff.filter (fun p => decide (p.2 ≠ []))).map
          (fun p => { feature := Feature.named (FKey.fmtd (vecLabel p.1)),
                      weight := sumValues p.2 })
    ∧ ((∀ p ∈ nff, p.2 = []) →
        rawOtherItems fws nff = (unmatchedItems fws (allFound nff)).1)
    ∧ (∀ name, vecLabel name =
        if name = "" then ("Highlighted in text (sum)")
        else name ++ ": Highlighted in text (sum)") := by
  refine ⟨?_, ?_, ?_⟩
  · rw [rawOtherItems, syntheticItems_eq]
  · intro hall
    rw [rawOtherItems, syntheticItems_eq]
    have hnil : nff.filter (fun p => decide (p.2 ≠ [])) = [] := by
      rw [List.filter_eq_nil_iff]
      intro p hp
      simp [hall p hp]
    rw [hnil]
    simp
  · intro name
    unfold vecLabel
    by_cases hname : name = ""
    · rw [if_pos hname, if_pos hname]
      rfl
    · rw [if_neg hname, if_neg hname, String.append_assoc]
      rfl

/-- Witness for C5 at a concrete input (the no-source-matched case). -/
theorem claim_C5_synthetic_entries_witness :
    rawOtherItems fwsW [("a", [])] = (unmatchedItems fwsW (allFound [("a", [])])).1 :=
  (claim_C5_synthetic_entries fwsW [("a", [])]).2.1 (by decide)

/-- C6: in the residual, every `pos` entry has weight `≥ 0` and every `neg`
entry has weight `< 0`, and each partition is a sublist of (preserves the
order of) the sorted `other_items` list. -/
theorem claim_C6_sign_partition (fws : FeatureWeights)
    (nff : List (String × FoundFeatures)) :
    (∀ fw ∈ (_get_other fws nff).pos, 0 ≤ fw.weight)
    ∧ (∀ fw ∈ (_get_other fws nff).neg, fw.weight < 0)
    ∧ ((_get_other fws nff).pos).Sublist (sortedOtherItems fws nff)
    ∧ ((_get_other fws nff).neg).Sublist (sortedOtherItems fws nff) := by
  refine ⟨fun fw h => ?_, fun fw h => ?_, ?_, ?_⟩
  · have h' : fw ∈ (sortedOtherItems fws nff).filter
        (fun fw => decide (0 ≤ fw.weight)) := h
    exact of_decide_eq_true (List.mem_filter.mp h').2
  · have h' : fw ∈ (sortedOtherItems fws nff).filter
        (fun fw => decide (fw.weight < 0)) := h
    exact of_decide_eq_true (List.mem_filter.mp h').2
  · exact List.filter_sublist _
  · exact List.filter_sublist _

/-- Witness for C6 at a concrete input. -/
theorem claim_C6_sign_partition_witness :
    (0 : ℚ) ≤ ({ feature := Feature.named (FKey.plain ("good")),
                 weight := 2 } : FeatureWeight).weight :=
  (claim_C6_sign_partition fwsW []).1 _ (by decide)

/-- C9: the residual copies `pos_remaining` and `neg_remaining` verbatim from
the original input. -/
theorem claim_C9_remaining_preserved (fws : FeatureWeights)
    (nff : List (String × FoundFeatures)) :
    (_get_other fws nff).pos_remaining = fws.pos_remaining ∧
    (_get_other fws nff).neg_remaining = fws.neg_remaining :=
  ⟨rfl, rfl⟩

/-- A concrete text vectorizer used by witnesses: a word analyzer that
discovers the identifier ("tok") at offsets `(0, 3)`. -/
def tvW : TextVec :=
  { buildSpanAnalyzer := fun d => some (d, [([(0, 3)], "tok")]), analyzer := "word" }

/-- Empty `FeatureWeights`, used by witnesses. -/
def fwsE : FeatureWeights := { pos := [], neg := [], pos_remaining := 0, neg_remaining := 0 }

/-- C3: under the per-source filter of a two-source union, a feature weight whose
identifier is `"a__tok"` never matches anything discovered by source `"b"`
(its key never enters the `found_features` of source b, whatever the analyzer
discovered — including the bare identifier `"tok"`); and the filter accepts an
identifier exactly when it starts with `"<name>__"`, stripping that prefix. -/
theorem claim_C3_union_disjoint (doc : String) (vb : Vec) (fws : FeatureWeights)
    (ff : FoundFeatures) (dws : DocWeightedSpans) (k : GKey) (fw : FeatureWeight)
    (h : _get_doc_weighted_spans doc vb fws (some (unionFilter ("b"))) = some (ff, dws))
    (hk : origAt fws k = some fw)
    (hfeat : fw.feature = Feature.named (FKey.plain ("a__tok"))) :
    k ∉ pyKeys ff
    ∧ ∀ (name x : String) (y : FKey),
        unionFilter name (FKey.plain x) = some y ↔
          (strStartsWith x (name ++ "__") = true ∧
            y = FKey.plain (x.drop (name ++ "__").length)) := by
  constructor
  · intro hmem
    rcases found_key_spec h hmem with ⟨fw2, f, ho, hf⟩
    rw [hk] at ho
    injection ho with he
    rw [← he, hfeat] at hf
    have hnil : _get_features (Feature.named (FKey.plain ("a__tok")))
        (some (unionFilter ("b"))) = [] := rfl
    rw [hnil] at hf
    exact absurd hf (List.not_mem_nil f)
  · intro name x y
    have huf : unionFilter name (FKey.plain x) =
        (if strStartsWith x (name ++ "__") = true then
          some (FKey.plain (x.drop (name ++ "__").length)) else none) := rfl
    rw [huf]
    by_cases hc : strStartsWith x (name ++ "__") = true
    · rw [if_pos hc]
      constructor
      · intro hy
        exact ⟨hc, (Option.some.inj hy).symm⟩
      · rintro ⟨_, rfl⟩
        rfl
    · rw [if_neg hc]
      constructor
      · intro hy
        exact Option.noConfusion hy
      · rintro ⟨hcc, _⟩
        exact absurd hcc hc

/-- A `FeatureWeights` whose sole entry is named the prefixed token, for the C3
witness. -/
def fwsW3 : FeatureWeights :=
  { pos := [{ feature := Feature.named (FKey.plain ("a__tok")), weight := 5 }],
    neg := [], pos_remaining := 0, neg_remaining := 0 }

/-- Witness for C3 at a concrete input: source ("b") discovers the bare ("tok"). -/
theorem claim_C3_union_disjoint_witness :
    ("pos", 0) ∉ pyKeys ([] : FoundFeatures) :=
  (claim_C3_union_disjoint ("tok") (Vec.mixin tvW) fwsW3 []
    { document := "tok", spans := [], preserve_density := false, vec_name := none }
    ("pos", 0) { feature := Feature.named (FKey.plain ("a__tok")), weight := 5 }
    (by decide) (by decide) rfl).1

/-- C4: the union returns NONE exactly when the alignment of every source returned
NONE; a successful union never has an empty `docs` list; and a declining
source is simply excluded from the merge. -/
theorem claim_C4_union_none (doc : String) (ts : List (String × Vec))
    (fws : FeatureWeights) :
    (_get_weighted_spans_from_union doc ts fws = none ↔
      ∀ p ∈ ts, _get_doc_weighted_spans doc p.2 fws (some (unionFilter p.1)) = none)
    ∧ (∀ ws, _get_weighted_spans_from_union doc ts fws = some ws → ws.docs ≠ [])
    ∧ (∀ (t1 : List (String × Vec)) (p : String × Vec) (t2 : List (String × Vec)),
        _get_doc_weighted_spans doc p.2 fws (some (unionFilter p.1)) = none →
        _get_weighted_spans_from_union doc (t1 ++ p :: t2) fws =
          _get_weighted_spans_from_union doc (t1 ++ t2) fws) := by
  have halign : ∀ p : String × Vec,
      (alignSource doc fws p = none ↔
        _get_doc_weighted_spans doc p.2 fws (some (unionFilter p.1)) = none) :=
    fun p => Option.map_eq_none'
  have hbody : ∀ (l : List (String × Vec)),
      _get_weighted_spans_from_union doc l fws =
        (if l.filterMap (alignSource doc fws) = [] then none
         else some
            { docs := (l.filterMap (alignSource doc fws)).map (fun r => r.2.2),
              other := _get_other fws
                ((l.filterMap (alignSource doc fws)).map (fun r => (r.1, r.2.1))) }) :=
    fun l => rfl
  refine ⟨?_, ?_, ?_⟩
  · rw [hbody]
    by_cases hres : ts.filterMap (alignSource doc fws) = []
    · rw [if_pos hres]
      simp only [eq_self_iff_true, true_iff]
      intro p hp
      exact (halign p).mp (List.filterMap_eq_nil_iff.mp hres p hp)
    · rw [if_neg hres]
      constructor
      · intro hcontra
        exact absurd hcontra (by simp)
      · intro hall
        exact absurd
          (List.filterMap_eq_nil_iff.mpr (fun p hp => (halign p).mpr (hall p hp)))
          hres
  · intro ws hws
    rw [hbody] at hws
    by_cases hres : ts.filterMap (alignSource doc fws) = []
    · rw [if_pos hres] at hws
      exact Option.noConfusion hws
    · rw [if_neg hres] at hws
      injection hws with hws'
      intro hd
      rw [← hws'] at hd
      exact hres (List.map_eq_nil_iff.mp hd)
  · intro t1 p t2 hnone
    have hal : alignSource doc fws p = none := (halign p).mpr hnone
    have hfm : (t1 ++ p :: t2).filterMap (alignSource doc fws) =
        (t1 ++ t2).filterMap (alignSource doc fws) := by
      simp [List.filterMap_append, List.filterMap_cons, hal]
    rw [hbody, hbody, hfm]

/-- Witness for C4 at a concrete input: a non-text source is excluded. -/
theorem claim_C4_union_none_witness :
    _get_weighted_spans_from_union ("tok") ([("a", Vec.mixin tvW)] ++ ("b", Vec.nonText) :: []) fwsE =
      _get_weighted_spans_from_union ("tok") ([("a", Vec.mixin tvW)] ++ []) fwsE :=
  (claim_C4_union_none ("tok") [] fwsE).2.2 [("a", Vec.mixin tvW)] ("b", Vec.nonText) [] rfl

/-- The aligner can analyze a source: the (unwrapped) vectorizer is a
`VectorizerMixin` and `build_span_analyzer` produced an analyzer. -/
def analyzable (doc : String) (vec : Vec) : Prop :=
  ∃ tv pd, unwrapVec vec = Vec.mixin tv ∧ tv.buildSpanAnalyzer doc = some pd

/-- C7: for an applicable analyzer, an empty document (an analyzer that
discovers nothing) or empty `FeatureWeights` yields `some` with an empty spans
list and empty `found_features`, not NONE; NONE happens exactly when the
source cannot be analyzed as text at all. -/
theorem claim_C7_empty_inputs (doc : String) (vec : Vec) (fws : FeatureWeights)
    (fn : Option (FKey → Option FKey)) :
    (_get_doc_weighted_spans doc vec fws fn = none ↔ ¬ analyzable doc vec)
    ∧ (∀ tv pd, unwrapVec vec = Vec.mixin tv → tv.buildSpanAnalyzer doc = some pd →
        ((fws.pos = [] ∧ fws.neg = []) ∨ pd.2 = []) →
        _get_doc_weighted_spans doc vec fws fn =
          some ([], { document := pd.1, spans := [],
                      preserve_density := strStartsWith tv.analyzer ("char"),
                      vec_name := none })) := by
  constructor
  · constructor
    · intro hnone hana
      rcases hana with ⟨tv, pd, htv, hpd⟩
      have hcast : _get_doc_weighted_spans doc vec fws fn = mixinSpans doc tv fws fn := by
        unfold _get_doc_weighted_spans
        rw [htv]
      rw [hcast] at hnone
      unfold mixinSpans at hnone
      rw [hpd] at hnone
      exact Option.noConfusion hnone
    · intro hna
      cases hv : unwrapVec vec with
      | mixin tv =>
        cases hb : tv.buildSpanAnalyzer doc with
        | some pd => exact absurd ⟨tv, pd, hv, hb⟩ hna
        | none =>
          have hcast : _get_doc_weighted_spans doc vec fws fn = mixinSpans doc tv fws fn := by
            unfold _get_doc_weighted_spans
            rw [hv]
          rw [hcast]
          unfold mixinSpans
          rw [hb]
      | invertableHashing v =>
        unfold _get_doc_weighted_spans
        rw [hv]
      | nonText =>
        unfold _get_doc_weighted_spans
        rw [hv]
  · intro tv pd htv hpd hempty
    have hcast : _get_doc_weighted_spans doc vec fws fn = mixinSpans doc tv fws fn := by
      unfold _get_doc_weighted_spans
      rw [htv]
    rw [hcast]
    simp only [mixinSpans, hpd]
    rcases hempty with ⟨hp, hn⟩ | hpd2
    · rw [featureWeightsDict_empty fn fws hp hn, spanLoop_nil_dict]
    · rw [hpd2]
      rfl

/-- Witness for C7 at a concrete input: empty `FeatureWeights`, applicable
analyzer. -/
theorem claim_C7_empty_inputs_witness :
    _get_doc_weighted_spans ("tok") (Vec.mixin tvW) fwsE none =
      some ([], { document := "tok", spans := [], preserve_density := false,
                  vec_name := none }) :=
  (claim_C7_empty_inputs ("tok") (Vec.mixin tvW) fwsE none).2 tvW
    ("tok", [([(0, 3)], "tok")]) rfl rfl (Or.inl ⟨rfl, rfl⟩)

/-- C8: a composite feature contributes one lookup-table entry per part (so it
matches a discovered identifier when the name of ANY part equals it); a composite
whose parts are all rejected by the name filter contributes no entries, so its
key is never matched and the original entry is routed to the residual
`other_items` list, not an error. -/
theorem claim_C8_composite (parts : List String) (fn : FKey → Option FKey)
    (doc : String) (vec : Vec) (fws : FeatureWeights) (ff : FoundFeatures)
    (dws : DocWeightedSpans) (k : GKey) (fw : FeatureWeight)
    (hrej : ∀ p ∈ parts, fn (FKey.plain p) = none)
    (h : _get_doc_weighted_spans doc vec fws (some fn) = some (ff, dws))
    (hk : origAt fws k = some fw)
    (hfeat : fw.feature = Feature.comp parts) :
    _get_features (Feature.comp parts) none = parts.map FKey.plain
    ∧ _get_features (Feature.comp parts) (some fn) = []
    ∧ k ∉ pyKeys ff
    ∧ fw ∈ (unmatchedItems fws (allFound [("", ff)])).1 := by
  have hempty : _get_features (Feature.comp parts) (some fn) = [] := by
    have hcast : _get_features (Feature.comp parts) (some fn) =
        ((parts.map FKey.plain).filterMap fn).filter pyTruthy := rfl
    have hfm : (parts.map FKey.plain).filterMap fn = [] := by
      rw [List.filterMap_eq_nil_iff]
      intro a ha
      rcases List.mem_map.mp ha with ⟨p, hp, rfl⟩
      exact hrej p hp
    rw [hcast, hfm]
    rfl
  have hnotmem : k ∉ pyKeys ff := by
    intro hmem
    rcases found_key_spec h hmem with ⟨fw2, f, ho, hf⟩
    rw [hk] at ho
    injection ho with he
    rw [← he, hfeat, hempty] at hf
    exact absurd hf (List.not_mem_nil f)
  refine ⟨rfl, hempty, hnotmem, ?_⟩
  rw [congrArg Prod.fst (unmatchedItems_eq fws (allFound [("", ff)]))]
  refine List.mem_map.mpr ⟨(k, fw), List.mem_filter.mpr ⟨mem_origEnum_of_origAt hk, ?_⟩, rfl⟩
  have hnk : k ∉ pyKeys (allFound [("", ff)]) := by
    rw [mem_pyKeys_allFound]
    rintro ⟨p, hp, hkp⟩
    rw [List.mem_singleton] at hp
    subst hp
    exact hnotmem hkp
  simpa using hnk

/-- A `FeatureWeights` whose sole entry is a composite feature, for the C8
witness. -/
def fwsW8 : FeatureWeights :=
  { pos := [{ feature := Feature.comp ["tok"], weight := 3 }],
    neg := [], pos_remaining := 0, neg_remaining := 0 }

/-- Witness for C8 at a concrete input: the filter of source ("b") rejects the
the only part of the composite, and the entry lands in the residual. -/
theorem claim_C8_composite_witness :
    ({ feature := Feature.comp ["tok"], weight := 3 } : FeatureWeight) ∈
      (unmatchedItems fwsW8 (allFound [("", ([] : FoundFeatures))])).1 :=
  (claim_C8_composite ["tok"] (unionFilter ("b")) "tok" (Vec.mixin tvW) fwsW8 []
    { document := "tok", spans := [], preserve_density := false, vec_name := none }
    ("pos", 0) { feature := Feature.comp ["tok"], weight := 3 }
    (by decide) (by decide) (by decide) rfl).2.2.2

/-- C10: every `(group, index)` key recorded in `found_features` maps to the
weight of the original `FeatureWeight` at that position, and every emitted
span carries exactly the weight stored in the lookup table for its discovered
identifier. -/
theorem claim_C10_weights_preserved (doc : String) (vec : Vec)
    (fws : FeatureWeights) (fn : Option (FKey → Option FKey))
    (ff : FoundFeatures) (dws : DocWeightedSpans)
    (h : _get_doc_weighted_spans doc vec fws fn = some (ff, dws)) :
    (∀ q ∈ ff, ∃ fw, origAt fws q.1 = some fw ∧ q.2 = fw.weight)
    ∧ (∀ s ∈ dws.spans,
        ∃ k, pyDictGet (featureWeightsDict fws fn) (FKey.plain s.1) = some (s.2.2, k)) := by
  constructor
  · intro q hq
    rcases (alignment_result_spec h).1 q hq with ⟨f, hget⟩
    rcases mem_featureWeightsDict (mem_of_pyDictGet_eq_some hget) with ⟨fw, ho, hw, _⟩
    exact ⟨fw, ho, hw⟩
  · exact (alignment_result_spec h).2

/-- A `FeatureWeights` whose sole entry matches the tvW discovery, for the C10
witness. -/
def fwsT : FeatureWeights :=
  { pos := [{ feature := Feature.named (FKey.plain ("tok")), weight := 5 }],
    neg := [], pos_remaining := 0, neg_remaining := 0 }

/-- Witness for C10 at a concrete input with one successful match. -/
theorem claim_C10_weights_preserved_witness :
    ∃ fw, origAt fwsT ("pos", 0) = some fw ∧ (5 : ℚ) = fw.weight :=
  (claim_C10_weights_preserved ("tok") (Vec.mixin tvW) fwsT none
    [(("pos", 0), 5)]
    { document := "tok", spans := [("tok", [(0, 3)], 5)], preserve_density := false,
      vec_name := none }
    (by decide)).1 (("pos", 0), 5) (by decide)

end EliText
